import Mathlib

/-!
Verification of the Redis command splitter
(`source/common/redis/command_splitter_impl.cc`).

The development shallowly embeds the splitter: RESP values become an
inductive type, the stateful request objects become explicit state records,
and the callback-driven child-response handling becomes a step function on
those records.  Pool-delivered child events are modelled as an explicit
event list; the pool contract (a handle fires exactly one terminal callback
and a cancelled handle fires none) is modelled by gating event delivery on
the liveness of the corresponding handle.
-/

namespace RedisSplitter

/-- RESP value tree, as consumed and produced by the splitter.  Mirrors the
`RespValue` tagged union of the codec: `SimpleString`, `Error`, `Integer`,
`BulkString`, `Null`, `Array`.  A freshly constructed value has type `Null`,
matching the default constructor used when pre-sizing the MGET reply. -/
inductive RespValue where
  | simple (s : String)
  | error (s : String)
  | integer (n : Int)
  | bulk (s : String)
  | null
  | array (elts : List RespValue)

/-- `RespValue::asString()`.  Only ever called on the string-carrying
variants in the embedded code paths (envelope validation guarantees
`BulkString` elements before any call site is reached). -/
def RespValue.asString : RespValue → String
  | .simple s => s
  | .error s => s
  | .bulk s => s
  | _ => ""

/-- Whether a value is a `BulkString`, as tested by the envelope
validation loop of `InstanceImpl::makeRequest`. -/
def RespValue.isBulkString : RespValue → Bool
  | .bulk _ => true
  | _ => false

/-- `Utility::makeError`: build a RESP `Error` carrying the message. -/
def Utility.makeError (e : String) : RespValue := .error e

/-- `SplitRequestBase::onWrongNumberOfArguments`: the error delivered for an
arity violation, quoting the command name in its original casing
(`request.asArray()[0].asString()`). -/
def onWrongNumberOfArguments (arr : List RespValue) : RespValue :=
  Utility.makeError
    ("wrong number of arguments for '" ++ (arr.headD .null).asString ++ "' command")

/-- The ASCII lower-casing table (`ToLowerTable`): bytes `A`-`Z` are
case-folded, every other byte passes through unchanged. -/
def toLowerChar (c : Char) : Char :=
  if 'A' ≤ c ∧ c ≤ 'Z' then Char.ofNat (c.toNat + 32) else c

/-- `ToLowerTable::toLowerCase` applied to a copy of a string: the table is
applied to each character in turn. -/
def toLowerString (s : String) : String := ⟨s.data.map toLowerChar⟩

/-- The four command handlers owned by `InstanceImpl`. -/
inductive Handler where
  | simple
  | eval
  | mget
  | mset
deriving DecidableEq

/-- `InstanceImpl::addHandler`: lower-case the command name, then
`command_map_.emplace` (which inserts only when the key is absent). -/
def addHandler (name : String) (h : Handler) (m : List (String × Handler)) :
    List (String × Handler) :=
  match m.lookup (toLowerString name) with
  | some _ => m
  | none => m ++ [(toLowerString name, h)]

/-- Observable outcome of `InstanceImpl::makeRequest`: stat increments, an
error delivered directly by the instance (if any), and the handler the
request was dispatched to (if any).  `dispatched = none` means the instance
returned `nullptr` without consulting any handler. -/
structure MakeRequestResult where
  invalidRequestInc : Nat
  unsupportedCommandInc : Nat
  delivered : Option RespValue
  dispatched : Option Handler

/-- `InstanceImpl::onInvalidRequest`: bump `invalid_request` and deliver
`Error "invalid request"`. -/
def onInvalidRequest : MakeRequestResult :=
  ⟨1, 0, some (Utility.makeError "invalid request"), none⟩

/-- `InstanceImpl::makeRequest` envelope validation and dispatch. -/
def instanceMakeRequest (m : List (String × Handler)) (request : RespValue) :
    MakeRequestResult :=
  match request with
  | .array arr =>
    if arr.length < 2 then onInvalidRequest
    else if ¬ arr.all RespValue.isBulkString then onInvalidRequest
    else
      match m.lookup (toLowerString ((arr.headD .null).asString)) with
      | none =>
        ⟨0, 1,
         some (Utility.makeError
           ("unsupported command '" ++ (arr.headD .null).asString ++ "'")),
         none⟩
      | some h => ⟨0, 0, none, some h⟩
  | _ => onInvalidRequest

/-- Outcome of `SimpleRequest::create` / `EvalRequest::create`: the error
delivered synchronously to the callbacks (if any), the upstream request
issued through `conn_pool.makeRequest` as a `(routing key, payload)` pair
(if the call was made), and whether a `SplitRequest` was returned to the
caller (`accepted = false` models returning `nullptr`). -/
structure SingleCreateResult where
  delivered : Option RespValue
  requested : Option (String × List RespValue)
  accepted : Bool

/-- `EvalRequest::create`: reject arrays of fewer than 4 elements with a
`wrong number of arguments` error, otherwise behave as a single upstream
request routed by `arg[3]` carrying the full incoming array. -/
def evalCreate (hasHost : String → Bool) (arr : List RespValue) :
    SingleCreateResult :=
  if arr.length < 4 then
    ⟨some (onWrongNumberOfArguments arr), none, false⟩
  else if hasHost ((arr.getD 3 .null).asString) then
    ⟨none, some ((arr.getD 3 .null).asString, arr), true⟩
  else
    ⟨some (Utility.makeError "no upstream host"),
     some ((arr.getD 3 .null).asString, arr), false⟩

/-- State of a `SingleServerRequest`: whether its pool handle is live. -/
structure SingleServerState where
  handle : Bool

/-- A terminal child callback from the pool for one fragment:
`PoolCallbacks::onResponse` or `PoolCallbacks::onFailure`. -/
inductive ChildEvent where
  | response (v : RespValue)
  | failure

/-- The value the splitter aggregates for a child event:
`FragmentedRequest::onChildFailure` forwards `Error "upstream failure"`
into `onChildResponse`, a response forwards its value. -/
def eventValue : ChildEvent → RespValue
  | .response v => v
  | .failure => Utility.makeError "upstream failure"

/-- `SingleServerRequest::onResponse` / `onFailure`: clear the handle and
forward the value (or `Error "upstream failure"`) to the caller's
callbacks.  The pool delivers a callback only through a live handle, so a
request whose handle is gone receives no event (`none`). -/
def singleOnEvent (st : SingleServerState) (ev : ChildEvent) :
    Option (SingleServerState × RespValue) :=
  if st.handle then some (⟨false⟩, eventValue ev) else none

/-- `SingleServerRequest::cancel`: cancel the pool handle and clear it. -/
def singleCancel (_st : SingleServerState) : SingleServerState := ⟨false⟩

/-- State shared by the fan-out requests (`FragmentedRequest` plus the
subclass aggregation state): `agg` is the subclass-specific pending
response state, `numPending` is `num_pending_responses_`, and `handles`
records which `PendingRequest` pool handles are still live. -/
structure FragmentedReq (α : Type) where
  agg : α
  numPending : Nat
  handles : List Bool

/-- Positions of the live handles, starting the count at `i`; used to name
which pool handles `FragmentedRequest::cancel` invokes `cancel()` on. -/
def liveIdxsAux : Nat → List Bool → List Nat
  | _, [] => []
  | i, b :: bs => if b then i :: liveIdxsAux (i + 1) bs else liveIdxsAux (i + 1) bs

/-- `FragmentedRequest::cancel`: walk `pending_requests_`, cancel each live
handle and clear it.  Returns the new state together with the indexes whose
pool handle received a `cancel()` call. -/
def fragmentedCancel {α : Type} (st : FragmentedReq α) :
    FragmentedReq α × List Nat :=
  ({ st with handles := st.handles.map (fun _ => false) },
   liveIdxsAux 0 st.handles)

/-- One child event arriving at a fan-out request, generic in the subclass
aggregation (`deposit` is the body of the subclass `onChildResponse` before
the pending-count bookkeeping, `finalize` builds the reply delivered when
the count reaches zero).  `frags` is the per-fragment `response_indexes`
list fixed at creation.  Delivery requires a live handle (pool contract);
the handle is cleared, the value deposited (`none` models a fatal
assertion), `num_pending_responses_` checked positive and decremented, and
the aggregated reply emitted when it reaches zero. -/
def onChildEvent {α : Type} (deposit : RespValue → List Nat → α → Option α)
    (finalize : α → RespValue) (frags : List (List Nat))
    (st : FragmentedReq α) (idx : Nat) (ev : ChildEvent) :
    Option (FragmentedReq α × Option RespValue) :=
  match st.handles.get? idx with
  | some true =>
    match deposit (eventValue ev) (frags.getD idx []) st.agg with
    | none => none
    | some agg2 =>
      match st.numPending with
      | 0 => none
      | n + 1 =>
        some ({ agg := agg2, numPending := n, handles := st.handles.set idx false },
              if n = 0 then some (finalize agg2) else none)
  | _ => none

/-- Run a list of child events through a fan-out request, collecting the
replies delivered to `SplitCallbacks::onResponse`. -/
def runEvents {α : Type} (deposit : RespValue → List Nat → α → Option α)
    (finalize : α → RespValue) (frags : List (List Nat)) :
    List (Nat × ChildEvent) → FragmentedReq α →
    Option (FragmentedReq α × List RespValue)
  | [], st => some (st, [])
  | (idx, ev) :: rest, st =>
    match onChildEvent deposit finalize frags st idx ev with
    | none => none
    | some (st2, out) =>
      (runEvents deposit finalize frags rest st2).map
        (fun p => (p.1, out.toList ++ p.2))

/-- The synthetic per-slot error for an MGET child reply of unexpected
scalar type. -/
def protocolError : RespValue := .error "upstream protocol error"

/-- Aggregation state of `MGETRequest`: the pre-sized reply slots
(`pending_response_`, a RESP array) and `error_count_`. -/
structure MGETAgg where
  slots : List RespValue
  errorCount : Nat

/-- The `Error` / `BulkString` branch of `MGETRequest::onChildResponse`.
For each responsible index the slot's type is set to the child value's type
(which resets the slot's string to empty) and then the slot's string is
`swap`ped with the child value's string; the string carried by the child
value after a swap is the slot's previous (empty) string. -/
def depositSwap (mk : String → RespValue) :
    List Nat → List RespValue → String → List RespValue × String
  | [], slots, s => (slots, s)
  | j :: rest, slots, s => depositSwap mk rest (slots.set j (mk s)) ""

/-- One nested element of a successful MGET child array deposited into its
original slot: `Null` and `BulkString` are copied (the string again moved
by `swap`, used once per nested element); any other nested type is the
`NOT_REACHED` fatal assertion. -/
def setNested (slots : List RespValue) (j : Nat) : RespValue → Option (List RespValue)
  | .null => some (slots.set j .null)
  | .bulk s => some (slots.set j (.bulk s))
  | _ => none

/-- The `Array` branch loop of `MGETRequest::onChildResponse`, walking the
(original index, nested element) pairs in order. -/
def depositArray : List (Nat × RespValue) → List RespValue → Option (List RespValue)
  | [], slots => some slots
  | (j, nested) :: rest, slots =>
    match setNested slots j nested with
    | some slots2 => depositArray rest slots2
    | none => none

/-- The body of `MGETRequest::onChildResponse` for one child value `v` and
the fragment's `response_indexes`: the scalar branch writes
`Error "upstream protocol error"` per index, the `Error`/`BulkString`
branch propagates the value by string `swap` per index (both branches also
bump `error_count_` per index), and the `Array` branch asserts the length
matches and deposits the nested elements positionally. -/
def mgetDeposit (v : RespValue) (idxs : List Nat) (agg : MGETAgg) : Option MGETAgg :=
  match v with
  | .integer _ =>
    some ⟨idxs.foldl (fun s j => s.set j protocolError) agg.slots,
          agg.errorCount + idxs.length⟩
  | .null =>
    some ⟨idxs.foldl (fun s j => s.set j protocolError) agg.slots,
          agg.errorCount + idxs.length⟩
  | .simple _ =>
    some ⟨idxs.foldl (fun s j => s.set j protocolError) agg.slots,
          agg.errorCount + idxs.length⟩
  | .error s =>
    some ⟨(depositSwap RespValue.error idxs agg.slots s).1,
          agg.errorCount + idxs.length⟩
  | .bulk s =>
    some ⟨(depositSwap RespValue.bulk idxs agg.slots s).1,
          agg.errorCount + idxs.length⟩
  | .array vs =>
    if vs.length = idxs.length then
      (depositArray (idxs.zip vs) agg.slots).map (fun slots2 => ⟨slots2, agg.errorCount⟩)
    else none

/-- The reply `MGETRequest` delivers when the last child arrives: the
pending response array. -/
def mgetFinalize (agg : MGETAgg) : RespValue := .array agg.slots

/-- The body of `MSETRequest::onChildResponse` for one child value: a
`SimpleString` equal to `"OK"` is a no-op, anything else adds the
fragment's key count (`response_indexes.size()`) to `error_count_`. -/
def msetDeposit (v : RespValue) (idxs : List Nat) (ec : Nat) : Option Nat :=
  match v with
  | .simple s => if s = "OK" then some ec else some (ec + idxs.length)
  | _ => some (ec + idxs.length)

/-- The reply `MSETRequest` delivers when the last child arrives. -/
def msetFinalize (ec : Nat) : RespValue :=
  if ec = 0 then .simple "OK"
  else Utility.makeError ("finished with " ++ toString ec ++ " error(s)")

/-- `MGETRequest::onChildResponse` as a step on the request state. -/
def mgetStep (frags : List (List Nat)) (st : FragmentedReq MGETAgg)
    (idx : Nat) (ev : ChildEvent) : Option (FragmentedReq MGETAgg × Option RespValue) :=
  onChildEvent mgetDeposit mgetFinalize frags st idx ev

/-- `MSETRequest::onChildResponse` as a step on the request state. -/
def msetStep (frags : List (List Nat)) (st : FragmentedReq Nat)
    (idx : Nat) (ev : ChildEvent) : Option (FragmentedReq Nat × Option RespValue) :=
  onChildEvent msetDeposit msetFinalize frags st idx ev

/-- A full schedule of child events for an MGET request. -/
def mgetRun (frags : List (List Nat)) (evs : List (Nat × ChildEvent))
    (st : FragmentedReq MGETAgg) : Option (FragmentedReq MGETAgg × List RespValue) :=
  runEvents mgetDeposit mgetFinalize frags evs st

/-- A full schedule of child events for an MSET request. -/
def msetRun (frags : List (List Nat)) (evs : List (Nat × ChildEvent))
    (st : FragmentedReq Nat) : Option (FragmentedReq Nat × List RespValue) :=
  runEvents msetDeposit msetFinalize frags evs st

/-- The `(key, original index)` pairs of the MGET fragmentation loop: the
source iterates `i` from 1 to `size - 1` over the incoming array and pairs
`asArray()[i].asString()` with `i - 1`; here the keys are already the tail
of the array and the stored index starts at 0. -/
def mgetPairsAux : Nat → List String → List (String × Nat)
  | _, [] => []
  | idx, k :: ks => (k, idx) :: mgetPairsAux (idx + 1) ks

/-- All `(key, original index)` pairs of an MGET request. -/
def mgetPairs (keys : List String) : List (String × Nat) := mgetPairsAux 0 keys

/-- Append an entry to its host's group, preserving first-seen group
contents order; a new host opens a fresh group.  This realises the
`request_map` insertions (`push_back` on an existing vector, fresh vector
otherwise). -/
def insertGroup {β : Type} (host : String) (p : β) :
    List (String × List β) → List (String × List β)
  | [] => [(host, [p])]
  | (h, g) :: rest =>
    if h = host then (h, g ++ [p]) :: rest
    else (h, g) :: insertGroup host p rest

/-- Group entries by `conn_pool.getHost` of their key.  The C++ container
is an `unordered_map`, whose iteration order is implementation defined;
the theorems below quantify over the completion order of fragments, so
only the groups' contents matter.  First-seen order is used as the
concrete representative. -/
def groupByHost {β : Type} (hostOf : β → String) (ps : List β) :
    List (String × List β) :=
  ps.foldl (fun acc p => insertGroup (hostOf p) p acc) []

/-- The MGET host groups of a key list. -/
def mgetGroups (getHost : String → String) (keys : List String) :
    List (String × List (String × Nat)) :=
  groupByHost (fun p => getHost p.1) (mgetPairs keys)

/-- Per-fragment `response_indexes`: the original indices carried by each
`PendingRequest`. -/
def mgetFragIdxs (getHost : String → String) (keys : List String) :
    List (List Nat) :=
  (mgetGroups getHost keys).map (fun g => g.2.map Prod.snd)

/-- Per-fragment key lists, in the same order as `mgetFragIdxs`: the keys
placed into each collapsed `MGET` fragment payload. -/
def mgetFragKeys (getHost : String → String) (keys : List String) :
    List (List String) :=
  (mgetGroups getHost keys).map (fun g => g.2.map Prod.fst)

/-- The state of a fresh `MGETRequest` after `create` when every fragment
submission returned a handle: `pending_response_` is an array of
default-constructed (`Null`) values, one per key, `error_count_` is zero,
`num_pending_responses_` is the number of host groups, and every fragment
handle is live. -/
def mgetInit (getHost : String → String) (keys : List String) :
    FragmentedReq MGETAgg :=
  ⟨⟨List.replicate keys.length .null, 0⟩,
   (mgetGroups getHost keys).length,
   List.replicate (mgetGroups getHost keys).length true⟩

/-- The `((key, value), original index)` triples of the MSET fragmentation
loop: the source iterates `i` over the odd positions of the incoming array
and stores `i - 1`; here the loop walks the tail of the array two elements
at a time with the stored index starting at 0. -/
def msetPairsAux : Nat → List RespValue → List ((String × String) × Nat)
  | idx, k :: v :: rest => ((k.asString, v.asString), idx) :: msetPairsAux (idx + 2) rest
  | _, _ => []

/-- All `((key, value), original index)` triples of an MSET request. -/
def msetTriples (arr : List RespValue) : List ((String × String) × Nat) :=
  msetPairsAux 0 (arr.drop 1)

/-- Outcome of `MSETRequest::create`: the reply delivered synchronously
(arity rejection, or the aggregate reply when every submission failed),
the upstream fragment requests issued as `(routing key, payload)` pairs,
and the surviving request state with its per-fragment `response_indexes`
(`none` models returning `nullptr`). -/
structure MSETCreateResult where
  delivered : Option RespValue
  requests : List (String × List RespValue)
  state : Option (FragmentedReq Nat × List (List Nat))

/-- `MSETRequest::create`: reject an even-length array (odd argument
count), otherwise group the key/value pairs by host, build one collapsed
`MSET` payload per host routed by the fragment's first key, and submit
each.  A submission for which the pool returns no handle
(`hasHost = false`) immediately feeds `Error "no upstream host"` through
the fragment's own `onChildResponse` path. -/
def msetCreate (getHost : String → String) (hasHost : String → Bool)
    (arr : List RespValue) : MSETCreateResult :=
  if (arr.length - 1) % 2 ≠ 0 then
    ⟨some (onWrongNumberOfArguments arr), [], none⟩
  else
    let groups := groupByHost (fun t => getHost t.1.1) (msetTriples arr)
    let frags := groups.map (fun g => g.2.map Prod.snd)
    let payloads := groups.map (fun g =>
      ((g.2.headD (("", ""), 0)).1.1,
       RespValue.bulk "MSET" ::
         g.2.foldr (fun t acc => RespValue.bulk t.1.1 :: RespValue.bulk t.1.2 :: acc) []))
    let st0 : FragmentedReq Nat := ⟨0, groups.length, List.replicate groups.length true⟩
    let failedEvents :=
      (liveIdxsAux 0 (payloads.map (fun p => !hasHost p.1))).map
        (fun i => (i, ChildEvent.response (Utility.makeError "no upstream host")))
    match msetRun frags failedEvents st0 with
    | some (st1, outs) =>
      ⟨outs.head?, payloads,
       if st1.numPending > 0 then some (st1, frags) else none⟩
    | none => ⟨none, payloads, none⟩

/-- The envelope condition checked by `InstanceImpl::makeRequest`: a RESP
array of at least two elements, all of them bulk strings. -/
def validEnvelope : RespValue → Bool
  | .array arr => decide (2 ≤ arr.length) && arr.all RespValue.isBulkString
  | _ => false

/-- Nested MGET reply elements the splitter accepts without tripping the
`NOT_REACHED` assertion. -/
def nullOrBulk : RespValue → Bool
  | .null => true
  | .bulk _ => true
  | _ => false

/-- A child value that `MGETRequest::onChildResponse` processes without a
fatal assertion for a fragment with the given `response_indexes`: any
non-array value, or an array of matching length whose elements are `Null`
or `BulkString`. -/
def mgetValueOk (v : RespValue) (idxs : List Nat) : Bool :=
  match v with
  | .array vs => decide (vs.length = idxs.length) && vs.all nullOrBulk
  | _ => true

/-- A child event that `MGETRequest` processes without a fatal assertion. -/
def mgetEventOk (ev : ChildEvent) (idxs : List Nat) : Bool :=
  match ev with
  | .response v => mgetValueOk v idxs
  | .failure => true

/-- The child reply types handled by the first (`Integer`/`Null`/
`SimpleString`) branch of `MGETRequest::onChildResponse`. -/
def scalarReply : RespValue → Bool
  | .integer _ => true
  | .null => true
  | .simple _ => true
  | _ => false

/-- Whether a child reply is the `SimpleString "OK"` that MSET aggregation
treats as success. -/
def isOKReply : RespValue → Bool
  | .simple s => s = "OK"
  | _ => false

/-- The total MSET `error_count_` for child replies `vals`: the sum over
all fragments whose reply is not `SimpleString "OK"` of the fragment's key
count. -/
def msetErrorTotal (frags : List (List Nat)) (vals : Nat → RespValue) : Nat :=
  ((List.range frags.length).map
    (fun fi => if isOKReply (vals fi) then 0 else (frags.getD fi []).length)).sum

/-! ## Theorems -/

/-- C3: evaluation of the `BulkString` branch of
`MGETRequest::onChildResponse` at a fragment responsible for two original
indexes.  The child value `BulkString "x"` is deposited by string `swap`,
so only the first slot receives the string `"x"`; the second slot receives
the emptied string, not a copy of `v` as the claim states.  The error
counter is incremented once per index as claimed. -/
theorem mget_swap_empties_later_slots :
    mgetDeposit (.bulk "x") [0, 1] ⟨[.null, .null], 0⟩
      = some ⟨[.bulk "x", .bulk ""], 2⟩ := rfl

/-- C5: any request failing the envelope validation (not an array, fewer
than two elements, or a non-bulk-string element) increments
`invalid_request`, delivers `Error "invalid request"`, and is dispatched to
no handler (the instance returns `nullptr`). -/
theorem invalid_envelope_rejected (m : List (String × Handler)) (request : RespValue)
    (h : validEnvelope request = false) :
    instanceMakeRequest m request
      = ⟨1, 0, some (Utility.makeError "invalid request"), none⟩ := by
  cases request with
  | array arr =>
    by_cases hlen : arr.length < 2
    · simp [instanceMakeRequest, hlen, onInvalidRequest]
    · have h2 : arr.all RespValue.isBulkString = false := by
        simp only [validEnvelope, Bool.and_eq_false_iff, decide_eq_false_iff_not,
          not_le] at h
        rcases h with h | h
        · exact absurd h hlen
        · exact h
      simp [instanceMakeRequest, hlen, h2, onInvalidRequest]
  | simple s => rfl
  | error s => rfl
  | integer n => rfl
  | bulk s => rfl
  | null => rfl

/-- C5 witness: the malformed request `["GET", Integer 3]`. -/
theorem invalid_envelope_rejected_witness :
    validEnvelope (.array [.bulk "GET", .integer 3]) = false ∧
    instanceMakeRequest (addHandler "get" .simple []) (.array [.bulk "GET", .integer 3])
      = ⟨1, 0, some (Utility.makeError "invalid request"), none⟩ :=
  ⟨by decide, invalid_envelope_rejected _ _ (by decide)⟩

/-- Lookup skips a prefix in which the key is absent. -/
theorem lookup_append_of_none (m l : List (String × Handler)) (k : String)
    (h : m.lookup k = none) : (m ++ l).lookup k = l.lookup k := by
  induction m with
  | nil => rfl
  | cons x m ih =>
    cases x with
    | mk p q =>
      simp only [List.cons_append, List.lookup] at h ⊢
      cases hpk : (k == p) with
      | true => rw [hpk] at h; exact Option.noConfusion h
      | false => rw [hpk] at h; exact ih h

/-- `InstanceImpl::makeRequest` on a valid envelope reduces to the command
map lookup of the lower-cased first argument. -/
theorem instanceMakeRequest_valid (m : List (String × Handler)) (a : String)
    (t : List RespValue) (ht : t ≠ []) (hb : t.all RespValue.isBulkString = true) :
    instanceMakeRequest m (.array (.bulk a :: t)) =
      match m.lookup (toLowerString a) with
      | none =>
        ⟨0, 1, some (Utility.makeError ("unsupported command '" ++ a ++ "'")), none⟩
      | some h => ⟨0, 0, none, some h⟩ := by
  have hlen : ¬ ((RespValue.bulk a :: t).length < 2) := by
    have : 0 < t.length := List.length_pos.mpr ht
    simp only [List.length_cons]
    omega
  have hall : (RespValue.bulk a :: t).all RespValue.isBulkString = true := by
    simp [List.all_cons, hb, RespValue.isBulkString]
  show (if (RespValue.bulk a :: t).length < 2 then onInvalidRequest
    else if ¬ (RespValue.bulk a :: t).all RespValue.isBulkString then onInvalidRequest
    else _) = _
  rw [if_neg hlen, if_neg (not_not_intro hall)]
  rfl

/-- C6: dispatch lower-cases a copy of `arg[0]` and consults a map keyed by
names lower-cased at registration, so requests whose first arguments agree
up to ASCII case dispatch identically; an absent name increments
`unsupported_command` and delivers `Error "unsupported command 'X'"` quoting
the original casing, dispatching to no handler. -/
theorem dispatch_case_insensitive (m : List (String × Handler)) (name : String)
    (hd : Handler) (a b : String) (t1 t2 : List RespValue)
    (hab : toLowerString a = toLowerString b)
    (ht1 : t1 ≠ []) (hb1 : t1.all RespValue.isBulkString = true)
    (ht2 : t2 ≠ []) (hb2 : t2.all RespValue.isBulkString = true) :
    ((instanceMakeRequest m (.array (.bulk a :: t1))).dispatched
      = (instanceMakeRequest m (.array (.bulk b :: t2))).dispatched)
    ∧ (m.lookup (toLowerString a) = none →
        instanceMakeRequest m (.array (.bulk a :: t1))
          = ⟨0, 1, some (Utility.makeError ("unsupported command '" ++ a ++ "'")), none⟩)
    ∧ (toLowerString name = toLowerString a →
        m.lookup (toLowerString a) = none →
        (addHandler name hd m).lookup (toLowerString a) = some hd) := by
  refine ⟨?_, ?_, ?_⟩
  · rw [instanceMakeRequest_valid m a t1 ht1 hb1,
      instanceMakeRequest_valid m b t2 ht2 hb2, hab]
    cases m.lookup (toLowerString b) <;> rfl
  · intro hnone
    rw [instanceMakeRequest_valid m a t1 ht1 hb1, hnone]
  · intro hname hnone
    simp only [addHandler, hname, hnone]
    rw [lookup_append_of_none _ _ _ hnone]
    simp [List.lookup]

/-- C6 witness: `"GeT"` and `"get"` dispatch alike against a map registered
with `"GET"`. -/
theorem dispatch_case_insensitive_witness :
    toLowerString "GeT" = toLowerString "get" ∧
    ([(toLowerString "mget", Handler.mget)].lookup (toLowerString "GeT") = none) ∧
    ((instanceMakeRequest [(toLowerString "mget", Handler.mget)]
        (.array [.bulk "GeT", .bulk "foo"])).dispatched
      = (instanceMakeRequest [(toLowerString "mget", Handler.mget)]
          (.array [.bulk "get", .bulk "bar"])).dispatched) ∧
    (instanceMakeRequest [(toLowerString "mget", Handler.mget)]
        (.array [.bulk "GeT", .bulk "foo"])
      = ⟨0, 1, some (Utility.makeError "unsupported command 'GeT'"), none⟩) ∧
    ((addHandler "GET" Handler.simple
        [(toLowerString "mget", Handler.mget)]).lookup (toLowerString "GeT")
      = some Handler.simple) := by
  refine ⟨by decide, by decide, ?_, ?_, ?_⟩
  · exact (dispatch_case_insensitive [(toLowerString "mget", Handler.mget)] "GET"
      Handler.simple "GeT" "get" [.bulk "foo"] [.bulk "bar"] (by decide)
      (List.cons_ne_nil _ _) (by decide) (List.cons_ne_nil _ _) (by decide)).1
  · exact (dispatch_case_insensitive [(toLowerString "mget", Handler.mget)] "GET"
      Handler.simple "GeT" "get" [.bulk "foo"] [.bulk "bar"] (by decide)
      (List.cons_ne_nil _ _) (by decide) (List.cons_ne_nil _ _) (by decide)).2.1
      (by decide)
  · exact (dispatch_case_insensitive [(toLowerString "mget", Handler.mget)] "GET"
      Handler.simple "GeT" "get" [.bulk "foo"] [.bulk "bar"] (by decide)
      (List.cons_ne_nil _ _) (by decide) (List.cons_ne_nil _ _) (by decide)).2.2
      (by decide) (by decide)

/-- C7: an EVAL/EVALSHA array of fewer than 4 elements and an MSET array
whose length minus 1 is odd are each rejected with
`Error "wrong number of arguments for 'X' command"` (X in the original
casing), delivering no upstream request and returning none; otherwise EVAL
issues a single upstream request routed by `arg[3]` carrying the full
original array. -/
theorem arity_validation (getHost : String → String) (hasHost : String → Bool)
    (arr : List RespValue) :
    (arr.length < 4 →
      evalCreate hasHost arr
        = ⟨some (Utility.makeError
            ("wrong number of arguments for '" ++ (arr.headD .null).asString ++ "' command")),
           none, false⟩)
    ∧ ((arr.length - 1) % 2 ≠ 0 →
      msetCreate getHost hasHost arr
        = ⟨some (Utility.makeError
            ("wrong number of arguments for '" ++ (arr.headD .null).asString ++ "' command")),
           [], none⟩)
    ∧ (4 ≤ arr.length →
      (evalCreate hasHost arr).requested = some ((arr.getD 3 .null).asString, arr)
      ∧ (hasHost ((arr.getD 3 .null).asString) = true →
          evalCreate hasHost arr = ⟨none, some ((arr.getD 3 .null).asString, arr), true⟩)) := by
  refine ⟨?_, ?_, ?_⟩
  · intro h4
    rw [evalCreate, if_pos h4]
    rfl
  · intro hodd
    rw [msetCreate, if_pos hodd]
    rfl
  · intro h4
    have hn4 : ¬ arr.length < 4 := not_lt.mpr h4
    constructor
    · rw [evalCreate, if_neg hn4]
      by_cases hh : hasHost ((arr.getD 3 .null).asString) = true
      · rw [if_pos hh]
      · rw [if_neg hh]
    · intro hh
      rw [evalCreate, if_neg hn4, if_pos hh]

/-- C7 witness: a 2-element EVAL, a 4-element MSET, and the routed EVAL of
scenario S5. -/
theorem arity_validation_witness :
    evalCreate (fun _ => true) [.bulk "EVAL", .bulk "s"]
      = ⟨some (Utility.makeError "wrong number of arguments for 'EVAL' command"),
         none, false⟩ ∧
    msetCreate (fun _ => "H") (fun _ => true) [.bulk "MSET", .bulk "a", .bulk "1", .bulk "b"]
      = ⟨some (Utility.makeError "wrong number of arguments for 'MSET' command"),
         [], none⟩ ∧
    evalCreate (fun _ => true)
        [.bulk "EVAL", .bulk "script", .bulk "2", .bulk "k1", .bulk "k2", .bulk "arg1"]
      = ⟨none,
         some ("k1", [.bulk "EVAL", .bulk "script", .bulk "2", .bulk "k1", .bulk "k2", .bulk "arg1"]),
         true⟩ :=
  ⟨(arity_validation (fun _ => "H") (fun _ => true) _).1 (by decide),
   (arity_validation (fun _ => "H") (fun _ => true) _).2.1 (by decide),
   ((arity_validation (fun _ => "H") (fun _ => true) _).2.2 (by decide)).2 rfl⟩

/-- Writing a constant into a list of slots preserves its length. -/
theorem foldl_set_length (idxs : List Nat) (slots : List RespValue) (x : RespValue) :
    (idxs.foldl (fun s j => s.set j x) slots).length = slots.length := by
  induction idxs generalizing slots with
  | nil => rfl
  | cons i rest ih => rw [List.foldl_cons, ih, List.length_set]

/-- Slots outside the written index set are untouched. -/
theorem foldl_set_not_mem (idxs : List Nat) (slots : List RespValue) (x : RespValue)
    (j : Nat) (hj : j ∉ idxs) :
    (idxs.foldl (fun s i => s.set i x) slots).get? j = slots.get? j := by
  induction idxs generalizing slots with
  | nil => rfl
  | cons i rest ih =>
    have hji : i ≠ j := by
      intro h
      subst h
      exact hj (List.mem_cons_self i rest)
    rw [List.foldl_cons, ih _ (fun h => hj (List.mem_cons_of_mem _ h)),
      List.get?_set_ne x _ hji]

/-- Every written slot holds the constant afterwards. -/
theorem foldl_set_mem (idxs : List Nat) (slots : List RespValue) (x : RespValue)
    (j : Nat) (hj : j ∈ idxs) (hlen : j < slots.length) :
    (idxs.foldl (fun s i => s.set i x) slots).get? j = some x := by
  induction idxs generalizing slots with
  | nil => cases hj
  | cons i rest ih =>
    rw [List.foldl_cons]
    by_cases hr : j ∈ rest
    · exact ih _ hr (by rw [List.length_set]; exact hlen)
    · have hij : j = i := by
        rcases List.mem_cons.mp hj with h | h
        · exact h
        · exact absurd h hr
      subst hij
      rw [foldl_set_not_mem rest _ x j hr, List.get?_set_eq_of_lt x hlen]

/-- C8: a child reply of type `Integer`, `Null` or `SimpleString` makes
every slot assigned to the fragment `Error "upstream protocol error"`, bumps
`error_count_` once per such slot, and leaves every other slot untouched. -/
theorem mget_scalar_reply_protocol_error (agg : MGETAgg) (idxs : List Nat)
    (v : RespValue) (hv : scalarReply v = true)
    (hlen : ∀ j ∈ idxs, j < agg.slots.length) :
    mgetDeposit v idxs agg
      = some ⟨idxs.foldl (fun s j => s.set j protocolError) agg.slots,
              agg.errorCount + idxs.length⟩
    ∧ (∀ j ∈ idxs,
        (idxs.foldl (fun s i => s.set i protocolError) agg.slots).get? j
          = some protocolError)
    ∧ (∀ j, j ∉ idxs →
        (idxs.foldl (fun s i => s.set i protocolError) agg.slots).get? j
          = agg.slots.get? j) := by
  refine ⟨?_, ?_, ?_⟩
  · cases v with
    | integer n => rfl
    | null => rfl
    | simple s => rfl
    | error s => exact absurd hv (by simp [scalarReply])
    | bulk s => exact absurd hv (by simp [scalarReply])
    | array vs => exact absurd hv (by simp [scalarReply])
  · intro j hj
    exact foldl_set_mem idxs agg.slots protocolError j hj (hlen j hj)
  · intro j hj
    exact foldl_set_not_mem idxs agg.slots protocolError j hj

/-- C8 witness: scenario S3, a fragment owning original indexes 0 and 2
receiving `Integer 5`. -/
theorem mget_scalar_reply_protocol_error_witness :
    scalarReply (.integer 5) = true ∧
    mgetDeposit (.integer 5) [0, 2] ⟨[.null, .null, .null], 7⟩
      = some ⟨[protocolError, .null, protocolError], 9⟩ :=
  ⟨by decide,
   (mget_scalar_reply_protocol_error ⟨[.null, .null, .null], 7⟩ [0, 2]
     (.integer 5) (by decide) (by decide)).1⟩

/-- C10: a pool transport failure on a fragment is handled exactly as a
child response of `Error "upstream failure"`: same step on the request
state for MGET and MSET; with a live handle and a positive pending count it
clears the handle, takes the `Error` aggregation branch (string-swap
deposit plus per-index `error_count_` bump for MGET, key-count bump for
MSET), decrements the pending count, and emits the aggregated reply exactly
when the count reaches zero. -/
theorem child_failure_is_error_response (frags : List (List Nat))
    (stG : FragmentedReq MGETAgg) (stS : FragmentedReq Nat) (idx n : Nat)
    (hG : stG.handles.get? idx = some true) (hGn : stG.numPending = n + 1)
    (hS : stS.handles.get? idx = some true) (hSn : stS.numPending = n + 1) :
    (mgetStep frags stG idx .failure
      = mgetStep frags stG idx (.response (Utility.makeError "upstream failure")))
    ∧ (msetStep frags stS idx .failure
      = msetStep frags stS idx (.response (Utility.makeError "upstream failure")))
    ∧ (mgetStep frags stG idx .failure
      = some ({ agg := ⟨(depositSwap RespValue.error (frags.getD idx [])
                          stG.agg.slots "upstream failure").1,
                        stG.agg.errorCount + (frags.getD idx []).length⟩,
                numPending := n, handles := stG.handles.set idx false },
              if n = 0 then
                some (mgetFinalize ⟨(depositSwap RespValue.error (frags.getD idx [])
                        stG.agg.slots "upstream failure").1,
                      stG.agg.errorCount + (frags.getD idx []).length⟩)
              else none))
    ∧ (msetStep frags stS idx .failure
      = some ({ agg := stS.agg + (frags.getD idx []).length,
                numPending := n, handles := stS.handles.set idx false },
              if n = 0 then some (msetFinalize (stS.agg + (frags.getD idx []).length))
              else none)) := by
  refine ⟨rfl, rfl, ?_, ?_⟩
  · rw [mgetStep, onChildEvent, hG, hGn]
    rfl
  · rw [msetStep, onChildEvent, hS, hSn]
    rfl

/-- C10 witness: one two-fragment MGET state and MSET state, the failure
arriving at fragment 0. -/
theorem child_failure_is_error_response_witness :
    ((⟨⟨[.null, .null, .null], 0⟩, 2, [true, true]⟩ :
        FragmentedReq MGETAgg).handles.get? 0 = some true) ∧
    ((⟨⟨[.null, .null, .null], 0⟩, 2, [true, true]⟩ :
        FragmentedReq MGETAgg).numPending = 1 + 1) ∧
    mgetStep [[0, 2], [1]] ⟨⟨[.null, .null, .null], 0⟩, 2, [true, true]⟩ 0 .failure
      = some (⟨⟨[.error "upstream failure", .null, .error ""], 2⟩, 1, [false, true]⟩,
              none) ∧
    msetStep [[0, 2], [1]] ⟨0, 2, [true, true]⟩ 0 .failure
      = some (⟨2, 1, [false, true]⟩, none) := by
  refine ⟨rfl, rfl, ?_, ?_⟩
  · exact (child_failure_is_error_response [[0, 2], [1]]
      ⟨⟨[.null, .null, .null], 0⟩, 2, [true, true]⟩ ⟨0, 2, [true, true]⟩ 0 1
      rfl rfl rfl rfl).2.2.1
  · exact (child_failure_is_error_response [[0, 2], [1]]
      ⟨⟨[.null, .null, .null], 0⟩, 2, [true, true]⟩ ⟨0, 2, [true, true]⟩ 0 1
      rfl rfl rfl rfl).2.2.2

/-- Membership in the live-handle index walk. -/
theorem mem_liveIdxsAux (bs : List Bool) : ∀ (n i : Nat),
    (i ∈ liveIdxsAux n bs ↔ ∃ j, i = n + j ∧ bs.get? j = some true) := by
  induction bs with
  | nil =>
    intro n i
    simp [liveIdxsAux]
  | cons b bs ih =>
    intro n i
    cases b with
    | true =>
      show i ∈ n :: liveIdxsAux (n + 1) bs ↔ _
      rw [List.mem_cons, ih (n + 1) i]
      constructor
      · rintro (h | ⟨j, hij, hj⟩)
        · exact ⟨0, by omega, rfl⟩
        · exact ⟨j + 1, by omega, hj⟩
      · rintro ⟨j, hij, hj⟩
        cases j with
        | zero => exact Or.inl (by omega)
        | succ j2 => exact Or.inr ⟨j2, by omega, hj⟩
    | false =>
      show i ∈ liveIdxsAux (n + 1) bs ↔ _
      rw [ih (n + 1) i]
      constructor
      · rintro ⟨j, hij, hj⟩
        exact ⟨j + 1, by omega, hj⟩
      · rintro ⟨j, hij, hj⟩
        cases j with
        | zero => exact absurd hj (by simp)
        | succ j2 => exact ⟨j2, by omega, hj⟩

/-- C9: `cancel()` clears every handle (the live ones receiving a pool
`cancel()` call first), after which no child event can be delivered, hence
no further `SplitCallbacks::onResponse` can occur — for fan-out requests
with any number of fragments in flight and for single-server requests. -/
theorem cancel_releases_handles_and_silences {α : Type}
    (deposit : RespValue → List Nat → α → Option α) (finalize : α → RespValue)
    (frags : List (List Nat)) (st : FragmentedReq α) (idx : Nat) (ev : ChildEvent)
    (sst : SingleServerState) (ev2 : ChildEvent) :
    ((fragmentedCancel st).1.handles = List.replicate st.handles.length false)
    ∧ (∀ i, i ∈ (fragmentedCancel st).2 ↔ st.handles.get? i = some true)
    ∧ (onChildEvent deposit finalize frags (fragmentedCancel st).1 idx ev = none)
    ∧ ((singleCancel sst).handle = false)
    ∧ (singleOnEvent (singleCancel sst) ev2 = none) := by
  refine ⟨List.map_const' st.handles false, ?_, ?_, rfl, rfl⟩
  · intro i
    rw [show (fragmentedCancel st).2 = liveIdxsAux 0 st.handles from rfl,
      mem_liveIdxsAux st.handles 0 i]
    constructor
    · rintro ⟨j, hij, hj⟩
      rwa [show i = j by omega]
    · intro h
      exact ⟨i, by omega, h⟩
  · unfold onChildEvent
    rw [show (fragmentedCancel st).1.handles = st.handles.map (fun _ => false) from rfl,
      List.get?_map]
    cases st.handles.get? idx <;> rfl

/-- Running one child event per scheduled fragment, in the given order:
each delivery clears the fragment's handle and decrements the pending
count, the deposits accumulate left to right, and the aggregate reply is
emitted exactly at the last event (none if the schedule is empty).
Hypotheses: the schedule has no repeated fragment, every scheduled
fragment's handle is live, the pending count equals the number of
scheduled fragments, and no scheduled deposit trips a fatal assertion. -/
theorem runEvents_complete {α : Type}
    (deposit : RespValue → List Nat → α → Option α) (finalize : α → RespValue)
    (frags : List (List Nat)) (evOf : Nat → ChildEvent) :
    ∀ (order : List Nat) (st : FragmentedReq α),
    order.Nodup →
    (∀ fi ∈ order, st.handles.get? fi = some true) →
    st.numPending = order.length →
    (∀ fi ∈ order, ∀ a : α,
      (deposit (eventValue (evOf fi)) (frags.getD fi []) a).isSome = true) →
    runEvents deposit finalize frags (order.map (fun fi => (fi, evOf fi))) st
      = some
        (⟨order.foldl
            (fun a fi => (deposit (eventValue (evOf fi)) (frags.getD fi []) a).getD a)
            st.agg,
          0,
          order.foldl (fun hs fi => hs.set fi false) st.handles⟩,
         if order = [] then []
         else
           [finalize
             (order.foldl
               (fun a fi => (deposit (eventValue (evOf fi)) (frags.getD fi []) a).getD a)
               st.agg)]) := by
  intro order
  induction order with
  | nil =>
    intro st hnd hlive hnp hdep
    cases st with
    | mk agg np hs =>
      have hz : np = 0 := hnp
      subst hz
      rfl
  | cons fi rest ih =>
    intro st hnd hlive hnp hdep
    obtain ⟨agg2, hagg2⟩ :=
      Option.isSome_iff_exists.mp (hdep fi (List.mem_cons_self fi rest) st.agg)
    have hfi : st.handles.get? fi = some true := hlive fi (List.mem_cons_self fi rest)
    have hstep : onChildEvent deposit finalize frags st fi (evOf fi)
        = some (⟨agg2, rest.length, st.handles.set fi false⟩,
                if rest.length = 0 then some (finalize agg2) else none) := by
      unfold onChildEvent
      rw [hfi, hagg2, hnp]
      rfl
    have hnotin : fi ∉ rest := (List.nodup_cons.mp hnd).1
    have ihres := ih ⟨agg2, rest.length, st.handles.set fi false⟩
      (List.nodup_cons.mp hnd).2
      (by
        intro fj hfj
        have hne : fi ≠ fj := fun h => hnotin (h ▸ hfj)
        show (st.handles.set fi false).get? fj = some true
        rw [List.get?_set_ne false _ hne]
        exact hlive fj (List.mem_cons_of_mem _ hfj))
      rfl
      (fun fj hfj a => hdep fj (List.mem_cons_of_mem _ hfj) a)
    rw [List.map_cons]
    show (match onChildEvent deposit finalize frags st fi (evOf fi) with
      | none => none
      | some (st2, out) =>
        (runEvents deposit finalize frags (rest.map (fun fj => (fj, evOf fj))) st2).map
          (fun (p : FragmentedReq α × List RespValue) =>
            (p.1, out.toList ++ p.2))) = _
    rw [hstep]
    show (runEvents deposit finalize frags (rest.map (fun fj => (fj, evOf fj)))
        ⟨agg2, rest.length, st.handles.set fi false⟩).map
          (fun p => (p.1,
            (if rest.length = 0 then some (finalize agg2) else none).toList ++ p.2)) = _
    rw [ihres, Option.map_some']
    simp only [List.foldl_cons, hagg2, Option.getD_some]
    by_cases hr : rest = []
    · subst hr
      rfl
    · have h1 : ¬ (rest.length = 0) := by
        simpa [List.length_eq_zero] using hr
      have h2 : fi :: rest ≠ [] := List.cons_ne_nil fi rest
      rw [if_neg h1, if_neg h2, if_neg hr]
      rfl

/-- Handle lookup in the all-live initial handle vector. -/
theorem replicate_true_get? (n i : Nat) (h : i < n) :
    (List.replicate n true).get? i = some true := by
  simp [List.get?_eq_getElem?, List.getElem?_replicate, h]

/-- The array-branch loop never trips `NOT_REACHED` when every nested
element is `Null` or `BulkString`. -/
theorem depositArray_isSome (ps : List (Nat × RespValue))
    (h : ∀ p ∈ ps, nullOrBulk p.2 = true) :
    ∀ slots : List RespValue, (depositArray ps slots).isSome = true := by
  induction ps with
  | nil => intro slots; rfl
  | cons p rest ih =>
    intro slots
    cases p with
    | mk j nested =>
      have hone : nullOrBulk nested = true := h (j, nested) (List.mem_cons_self _ _)
      have hrest : ∀ q ∈ rest, nullOrBulk q.2 = true :=
        fun q hq => h q (List.mem_cons_of_mem _ hq)
      cases nested with
      | null => exact ih hrest _
      | bulk s => exact ih hrest _
      | simple s => exact absurd hone (by simp [nullOrBulk])
      | error s => exact absurd hone (by simp [nullOrBulk])
      | integer m => exact absurd hone (by simp [nullOrBulk])
      | array vs => exact absurd hone (by simp [nullOrBulk])

/-- An event satisfying `mgetEventOk` deposits without a fatal assertion,
whatever the current aggregation state. -/
theorem mgetEventOk_deposit_isSome (ev : ChildEvent) (idxs : List Nat)
    (h : mgetEventOk ev idxs = true) (a : MGETAgg) :
    (mgetDeposit (eventValue ev) idxs a).isSome = true := by
  cases ev with
  | failure => rfl
  | response v =>
    cases v with
    | simple s => rfl
    | error s => rfl
    | integer n => rfl
    | bulk s => rfl
    | null => rfl
    | array vs =>
      have h2 := h
      simp only [mgetEventOk, mgetValueOk, Bool.and_eq_true, decide_eq_true_eq] at h2
      have hz : ∀ p ∈ idxs.zip vs, nullOrBulk p.2 = true := by
        intro p hp
        exact (List.all_eq_true.mp h2.2) p.2 (List.of_mem_zip hp).2
      show (if vs.length = idxs.length then
        (depositArray (idxs.zip vs) a.slots).map
          (fun slots2 => MGETAgg.mk slots2 a.errorCount)
        else none).isSome = true
      rw [if_pos h2.1]
      obtain ⟨res, hres⟩ := Option.isSome_iff_exists.mp (depositArray_isSome _ hz a.slots)
      rw [hres]
      rfl

/-- The MSET aggregation body never fails. -/
theorem msetDeposit_isSome (v : RespValue) (idxs : List Nat) (ec : Nat) :
    (msetDeposit v idxs ec).isSome = true := by
  cases v with
  | simple s =>
    show (if s = "OK" then some ec else some (ec + idxs.length)).isSome = true
    by_cases hs : s = "OK"
    · rw [if_pos hs]; rfl
    · rw [if_neg hs]; rfl
  | error s => rfl
  | integer n => rfl
  | bulk s => rfl
  | null => rfl
  | array vs => rfl

/-- One MSET deposit adds the fragment's key count when the reply is not
`SimpleString "OK"` and nothing otherwise. -/
theorem msetDeposit_getD (v : RespValue) (idxs : List Nat) (e : Nat) :
    (msetDeposit v idxs e).getD e
      = e + (if isOKReply v then 0 else idxs.length) := by
  cases v with
  | simple s =>
    show (if s = "OK" then some e else some (e + idxs.length)).getD e = _
    by_cases hs : s = "OK"
    · rw [if_pos hs]
      have : isOKReply (.simple s) = true := by
        simp [isOKReply, hs]
      rw [this]
      simp
    · rw [if_neg hs]
      have : isOKReply (.simple s) = false := by
        simp [isOKReply, hs]
      rw [this]
      simp
  | error s => simp [msetDeposit, isOKReply]
  | integer n => simp [msetDeposit, isOKReply]
  | bulk s => simp [msetDeposit, isOKReply]
  | null => simp [msetDeposit, isOKReply]
  | array vs => simp [msetDeposit, isOKReply]

/-- The MSET error counter accumulates, fragment by fragment, the key
counts of the non-OK replies. -/
theorem msetFoldl_sum (frags : List (List Nat)) (vals : Nat → RespValue) :
    ∀ (order : List Nat) (e : Nat),
    order.foldl
        (fun a fi => (msetDeposit (vals fi) (frags.getD fi []) a).getD a) e
      = e + (order.map
          (fun fi => if isOKReply (vals fi) then 0 else (frags.getD fi []).length)).sum := by
  intro order
  induction order with
  | nil => intro e; simp
  | cons fi rest ih =>
    intro e
    rw [List.foldl_cons, msetDeposit_getD, ih, List.map_cons, List.sum_cons]
    omega

/-- C4: an MSET whose children all reply `SimpleString "OK"` delivers
`SimpleString "OK"`; otherwise it delivers
`Error "finished with K error(s)"` where `K` is the sum of the key counts
of the fragments with a non-OK reply — independently of completion order. -/
theorem mset_aggregation (frags : List (List Nat)) (vals : Nat → RespValue)
    (order : List Nat)
    (hk : frags ≠ [])
    (hperm : order.Perm (List.range frags.length))
    (hne : ∀ fi ∈ order, frags.getD fi [] ≠ []) :
    ((msetRun frags (order.map (fun fi => (fi, ChildEvent.response (vals fi))))
        ⟨0, frags.length, List.replicate frags.length true⟩).map
      (fun p => p.2)
      = some [if msetErrorTotal frags vals = 0 then RespValue.simple "OK"
              else Utility.makeError
                ("finished with " ++ toString (msetErrorTotal frags vals) ++ " error(s)")])
    ∧ (msetErrorTotal frags vals = 0 ↔
        ∀ fi, fi < frags.length → isOKReply (vals fi) = true) := by
  have hw : ∀ fi : Nat,
      (if isOKReply (vals fi) then 0 else (frags.getD fi []).length)
        = (fun fj => if isOKReply (vals fj) then 0 else (frags.getD fj []).length) fi :=
    fun _ => rfl
  constructor
  · have hneo : order ≠ [] := by
      intro h
      have := hperm.length_eq
      rw [h] at this
      simp only [List.length_nil, List.length_range] at this
      exact hk (List.length_eq_zero.mp this.symm)
    have h := runEvents_complete msetDeposit msetFinalize frags
      (fun fi => ChildEvent.response (vals fi)) order
      ⟨0, frags.length, List.replicate frags.length true⟩
      (hperm.nodup_iff.mpr (List.nodup_range _))
      (by
        intro fi hfi
        exact replicate_true_get? _ _
          (List.mem_range.mp (hperm.mem_iff.mp hfi)))
      (by
        show frags.length = order.length
        rw [hperm.length_eq, List.length_range])
      (fun fi hfi a => msetDeposit_isSome (vals fi) _ a)
    unfold msetRun
    rw [h, Option.map_some', if_neg hneo]
    have hsum : order.foldl
        (fun a fi =>
          (msetDeposit (eventValue (ChildEvent.response (vals fi)))
            (frags.getD fi []) a).getD a) 0
        = msetErrorTotal frags vals := by
      rw [show (fun (a : Nat) (fi : Nat) =>
          (msetDeposit (eventValue (ChildEvent.response (vals fi)))
            (frags.getD fi []) a).getD a)
        = (fun (a : Nat) (fi : Nat) =>
          (msetDeposit (vals fi) (frags.getD fi []) a).getD a) from rfl]
      rw [msetFoldl_sum frags vals order 0, Nat.zero_add, msetErrorTotal]
      exact List.Perm.sum_eq (hperm.map _)
    show some ([msetFinalize _]) = _
    rw [hsum]
    rfl
  · constructor
    · intro h0 fi hfi
      have hmem : (if isOKReply (vals fi) then 0 else (frags.getD fi []).length)
          ∈ (List.range frags.length).map
            (fun fj => if isOKReply (vals fj) then 0 else (frags.getD fj []).length) := by
        rw [hw fi]
        exact List.mem_map_of_mem _ (List.mem_range.mpr hfi)
      have hz := (List.sum_eq_zero_iff.mp h0) _ hmem
      by_cases hok : isOKReply (vals fi) = true
      · exact hok
      · rw [if_neg hok] at hz
        exact absurd (List.length_eq_zero.mp hz)
          (hne fi (hperm.mem_iff.mpr (List.mem_range.mpr hfi)))
    · intro hall
      apply List.sum_eq_zero
      intro x hx
      obtain ⟨fi, hfi, rfl⟩ := List.mem_map.mp hx
      rw [if_pos (hall fi (List.mem_range.mp hfi))]

/-- C4 witness: scenario S4 — `MSET a 1 b 2 c 3` split into a two-key
fragment replying `Error "boom"` and a one-key fragment replying OK, the OK
fragment completing first. -/
theorem mset_aggregation_witness :
    ([1, 0] : List Nat).Perm (List.range 2) ∧
    ((msetRun [[0, 4], [2]]
        (([1, 0] : List Nat).map
          (fun fi => (fi, ChildEvent.response
            (if fi = 0 then RespValue.error "boom" else RespValue.simple "OK"))))
        ⟨0, 2, List.replicate 2 true⟩).map
      (fun p => p.2)
      = some [Utility.makeError "finished with 2 error(s)"]) := by
  refine ⟨by decide, ?_⟩
  exact (mset_aggregation [[0, 4], [2]]
    (fun fi => if fi = 0 then RespValue.error "boom" else RespValue.simple "OK")
    [1, 0] (by decide) (by decide) (by decide)).1

/-- Inserting an entry into its host group only adds that entry to the
grouped elements, up to permutation. -/
theorem insertGroup_elems {β : Type} (host : String) (p : β) :
    ∀ gs : List (String × List β),
    List.Perm ((insertGroup host p gs).map (fun g => g.2)).flatten
      (p :: (gs.map (fun g => g.2)).flatten) := by
  intro gs
  induction gs with
  | nil => simp [insertGroup]
  | cons hg rest ih =>
    cases hg with
    | mk h g =>
      rw [insertGroup]
      by_cases hh : h = host
      · rw [if_pos hh]
        simp only [List.map_cons, List.flatten_cons]
        rw [List.append_assoc]
        exact List.perm_middle
      · rw [if_neg hh]
        simp only [List.map_cons, List.flatten_cons]
        exact (List.Perm.append_left g ih).trans List.perm_middle

/-- Grouping by host permutes the input entries into the groups. -/
theorem groupByHost_elems {β : Type} (hostOf : β → String) (ps : List β) :
    List.Perm ((groupByHost hostOf ps).map (fun g => g.2)).flatten ps := by
  have main : ∀ (qs : List β) (acc : List (String × List β)),
      List.Perm
        ((qs.foldl (fun acc p => insertGroup (hostOf p) p acc) acc).map
          (fun g => g.2)).flatten
        ((acc.map (fun g => g.2)).flatten ++ qs) := by
    intro qs
    induction qs with
    | nil => intro acc; simp
    | cons p rest ih =>
      intro acc
      rw [List.foldl_cons]
      refine (ih (insertGroup (hostOf p) p acc)).trans ?_
      refine (List.Perm.append_right rest (insertGroup_elems (hostOf p) p acc)).trans ?_
      exact List.perm_middle.symm
  have h := main ps []
  simpa using h

/-- The stored indices of the MGET pairs starting at `n` are the range
from `n`. -/
theorem mgetPairsAux_snd (keys : List String) :
    ∀ n, (mgetPairsAux n keys).map Prod.snd = List.range' n keys.length := by
  induction keys with
  | nil => intro n; rfl
  | cons k ks ih =>
    intro n
    rw [mgetPairsAux, List.map_cons, ih (n + 1), List.length_cons,
      List.range'_succ n ks.length 1]

/-- Each MGET pair records the key stored at its index. -/
theorem mgetPairsAux_mem (keys : List String) :
    ∀ n (p : String × Nat), p ∈ mgetPairsAux n keys →
      n ≤ p.2 ∧ keys.get? (p.2 - n) = some p.1 := by
  induction keys with
  | nil => intro n p hp; cases hp
  | cons k ks ih =>
    intro n p hp
    rw [mgetPairsAux] at hp
    rcases List.mem_cons.mp hp with h | h
    · subst h
      exact ⟨Nat.le_refl n, by simp⟩
    · obtain ⟨h1, h2⟩ := ih (n + 1) p h
      refine ⟨by omega, ?_⟩
      have hs : p.2 - n = (p.2 - (n + 1)) + 1 := by omega
      rw [hs]
      exact h2

/-- The per-fragment `response_indexes` of an MGET jointly enumerate the
original key positions, each exactly once. -/
theorem mgetFragIdxs_join_perm (getHost : String → String) (keys : List String) :
    List.Perm (mgetFragIdxs getHost keys).flatten (List.range keys.length) := by
  have h1 : mgetFragIdxs getHost keys
      = ((mgetGroups getHost keys).map (fun g => g.2)).map (List.map Prod.snd) := by
    rw [mgetFragIdxs, List.map_map]
    rfl
  rw [h1, ← List.map_flatten]
  have h2 := (groupByHost_elems (fun p : String × Nat => getHost p.1)
    (mgetPairs keys)).map Prod.snd
  rw [show mgetPairs keys = mgetPairsAux 0 keys from rfl] at h2
  rw [mgetPairsAux_snd keys 0, ← List.range_eq_range' keys.length] at h2
  exact h2

/-- `getD` through a `map`, inside the length. -/
theorem getD_map_lt {α β : Type} (l : List α) (f : α → β) (i : Nat)
    (h : i < l.length) (d : β) : (l.map f).getD i d = f (l.get ⟨i, h⟩) := by
  rw [List.getD_eq_get? (l.map f) i d, List.get?_map, List.get?_eq_get h]
  rfl

/-- `getD` inside the length is `get`. -/
theorem getD_lt_eq_get {α : Type} (l : List α) (i : Nat) (h : i < l.length) (d : α) :
    l.getD i d = l.get ⟨i, h⟩ := by
  rw [List.getD_eq_get? l i d, List.get?_eq_get h]
  rfl

/-- A duplicate-free flattening makes the parts duplicate-free and
pairwise disjoint (stated positionally). -/
theorem flatten_nodup_parts (L : List (List Nat)) (h : L.flatten.Nodup) :
    (∀ fi, fi < L.length → (L.getD fi []).Nodup)
    ∧ (∀ fi fj, fi < L.length → fj < L.length → fi ≠ fj →
        ∀ x ∈ L.getD fi [], x ∉ L.getD fj []) := by
  obtain ⟨hparts, hpair⟩ := List.nodup_flatten.mp h
  have hp := List.pairwise_iff_get.mp hpair
  constructor
  · intro fi hfi
    rw [getD_lt_eq_get L fi hfi]
    exact hparts _ (L.get_mem _ _)
  · intro fi fj hfi hfj hne x hx
    rw [getD_lt_eq_get L fj hfj]
    rw [getD_lt_eq_get L fi hfi] at hx
    rcases Nat.lt_or_ge fi fj with hlt | hge
    · exact hp ⟨fi, hfi⟩ ⟨fj, hfj⟩ hlt hx
    · have hlt2 : fj < fi := by omega
      intro hx2
      exact hp ⟨fj, hfj⟩ ⟨fi, hfi⟩ hlt2 hx2 hx

/-- Full characterisation of the array-branch deposit loop: it succeeds on
`Null`/`BulkString` nested elements, preserves the slot count, writes each
pair's value at its index, and leaves all other slots untouched. -/
theorem depositArray_spec :
    ∀ (ps : List (Nat × RespValue)) (slots : List RespValue),
    (∀ p ∈ ps, nullOrBulk p.2 = true) → (ps.map Prod.fst).Nodup →
    ∃ slots2, depositArray ps slots = some slots2
      ∧ slots2.length = slots.length
      ∧ (∀ p ∈ ps, p.1 < slots.length → slots2.get? p.1 = some p.2)
      ∧ (∀ j, j ∉ ps.map Prod.fst → slots2.get? j = slots.get? j) := by
  intro ps
  induction ps with
  | nil =>
    intro slots _ _
    exact ⟨slots, rfl, rfl, fun p hp => absurd hp (List.not_mem_nil p),
      fun j _ => rfl⟩
  | cons q rest ih =>
    intro slots hwf hnd
    cases q with
    | mk j v =>
      have hnd2 : (j :: rest.map Prod.fst).Nodup := hnd
      have hjne : j ∉ rest.map Prod.fst := (List.nodup_cons.mp hnd2).1
      have hndrest : (rest.map Prod.fst).Nodup := (List.nodup_cons.mp hnd2).2
      have hone : nullOrBulk v = true := hwf (j, v) (List.mem_cons_self _ _)
      have hset : setNested slots j v = some (slots.set j v) := by
        cases v with
        | null => rfl
        | bulk s => rfl
        | simple s => exact absurd hone (by simp [nullOrBulk])
        | error s => exact absurd hone (by simp [nullOrBulk])
        | integer m => exact absurd hone (by simp [nullOrBulk])
        | array vs => exact absurd hone (by simp [nullOrBulk])
      obtain ⟨slots2, hda, hlen, hmem, hnotmem⟩ :=
        ih (slots.set j v) (fun p hp => hwf p (List.mem_cons_of_mem _ hp)) hndrest
      refine ⟨slots2, ?_, ?_, ?_, ?_⟩
      · show (match setNested slots j v with
          | some s2 => depositArray rest s2
          | none => none) = some slots2
        rw [hset]
        exact hda
      · rw [hlen, List.length_set]
      · intro p hp hplt
        rcases List.mem_cons.mp hp with h | h
        · subst h
          rw [hnotmem j hjne, List.get?_set_eq_of_lt v hplt]
        · exact hmem p h (by rw [List.length_set]; exact hplt)
      · intro j2 hj2
        have hj2r : j2 ∉ rest.map Prod.fst := by
          intro hc
          exact hj2 (by simpa using Or.inr hc)
        have hj2j : j ≠ j2 := by
          intro hc
          exact hj2 (by simpa using Or.inl hc.symm)
        rw [hnotmem j2 hj2r, List.get?_set_ne v _ hj2j]

/-- One successful MGET fragment deposit: when the upstream answers a
fragment with the array of per-key values for the fragment's keys, the
deposit succeeds, fills exactly the fragment's `response_indexes` with the
value of the key originally at that index, and leaves every other slot and
the error counter unchanged. -/
theorem mget_fragment_deposit_spec (getHost : String → String) (keys : List String)
    (respK : String → RespValue)
    (hwf : ∀ s, nullOrBulk (respK s) = true) :
    ∀ fi, fi < (mgetGroups getHost keys).length →
    ∀ (slots : List RespValue) (ec : Nat), slots.length = keys.length →
    ∃ slots2,
      mgetDeposit (.array (((mgetFragKeys getHost keys).getD fi []).map respK))
          ((mgetFragIdxs getHost keys).getD fi []) ⟨slots, ec⟩
        = some ⟨slots2, ec⟩
      ∧ slots2.length = slots.length
      ∧ (∀ j ∈ (mgetFragIdxs getHost keys).getD fi [],
          slots2.get? j = some (respK (keys.getD j "")))
      ∧ (∀ j, j ∉ (mgetFragIdxs getHost keys).getD fi [] →
          slots2.get? j = slots.get? j) := by
  intro fi hfi slots ec hslots
  have hgl : fi < (mgetGroups getHost keys).length := hfi
  have hidxs : (mgetFragIdxs getHost keys).getD fi []
      = ((mgetGroups getHost keys).get ⟨fi, hgl⟩).2.map Prod.snd :=
    getD_map_lt (mgetGroups getHost keys) _ fi hgl []
  have hfkeys : (mgetFragKeys getHost keys).getD fi []
      = ((mgetGroups getHost keys).get ⟨fi, hgl⟩).2.map Prod.fst :=
    getD_map_lt (mgetGroups getHost keys) _ fi hgl []
  set g := ((mgetGroups getHost keys).get ⟨fi, hgl⟩).2 with hg
  -- The flattened response indexes are a permutation of the key range.
  have hflat := mgetFragIdxs_join_perm getHost keys
  have hflnodup : (mgetFragIdxs getHost keys).flatten.Nodup :=
    hflat.nodup_iff.mpr (List.nodup_range _)
  have hfragslen : (mgetFragIdxs getHost keys).length
      = (mgetGroups getHost keys).length := List.length_map _ _
  have hpartnodup :=
    (flatten_nodup_parts _ hflnodup).1 fi (by rw [hfragslen]; exact hgl)
  -- Membership of fragment indexes in the flattening, hence in the range.
  have hmemrange : ∀ j ∈ (mgetFragIdxs getHost keys).getD fi [], j < keys.length := by
    intro j hj
    have hjfl : j ∈ (mgetFragIdxs getHost keys).flatten := by
      apply List.mem_flatten.mpr
      refine ⟨(mgetFragIdxs getHost keys).getD fi [], ?_, hj⟩
      rw [getD_lt_eq_get _ fi (by rw [hfragslen]; exact hgl)]
      exact List.get_mem _ _ _
    exact List.mem_range.mp (hflat.mem_iff.mp hjfl)
  -- Each pair of the group associates a key with its original position.
  have hpairlookup : ∀ p ∈ g, keys.get? p.2 = some p.1 := by
    intro p hp
    have hgin : g ∈ (mgetGroups getHost keys).map (fun q => q.2) :=
      List.mem_map_of_mem _ (List.get_mem _ _ _)
    have hpin : p ∈ ((mgetGroups getHost keys).map (fun q => q.2)).flatten :=
      List.mem_flatten.mpr ⟨g, hgin, hp⟩
    have hpin2 : p ∈ mgetPairs keys :=
      (groupByHost_elems (fun q : String × Nat => getHost q.1)
        (mgetPairs keys)).mem_iff.mp hpin
    have := (mgetPairsAux_mem keys 0 p hpin2).2
    simpa using this
  -- The deposited pair list.
  have hzip : ((mgetFragIdxs getHost keys).getD fi []).zip
      (((mgetFragKeys getHost keys).getD fi []).map respK)
      = g.map (fun p => (p.2, respK p.1)) := by
    rw [hidxs, hfkeys, List.map_map]
    exact List.zip_map' Prod.snd (respK ∘ Prod.fst) g
  have hpswf : ∀ q ∈ g.map (fun p => (p.2, respK p.1)), nullOrBulk q.2 = true := by
    intro q hq
    obtain ⟨p, _, rfl⟩ := List.mem_map.mp hq
    exact hwf p.1
  have hpsnodup : ((g.map (fun p => (p.2, respK p.1))).map Prod.fst).Nodup := by
    rw [List.map_map]
    have : (Prod.fst ∘ fun p : String × Nat => (p.2, respK p.1)) = Prod.snd := rfl
    rw [this, ← hidxs]
    exact hpartnodup
  obtain ⟨slots2, hda, hlen2, hmem2, hnot2⟩ :=
    depositArray_spec (g.map (fun p => (p.2, respK p.1))) slots hpswf hpsnodup
  have hlength : (((mgetFragKeys getHost keys).getD fi []).map respK).length
      = ((mgetFragIdxs getHost keys).getD fi []).length := by
    rw [hidxs, hfkeys]
    simp
  refine ⟨slots2, ?_, hlen2, ?_, ?_⟩
  · show (if (((mgetFragKeys getHost keys).getD fi []).map respK).length
        = ((mgetFragIdxs getHost keys).getD fi []).length then
      (depositArray
        (((mgetFragIdxs getHost keys).getD fi []).zip
          (((mgetFragKeys getHost keys).getD fi []).map respK)) slots).map
        (fun s2 => MGETAgg.mk s2 ec)
      else none) = some ⟨slots2, ec⟩
    rw [if_pos hlength, hzip, hda]
    rfl
  · intro j hj
    have hjlt : j < slots.length := by rw [hslots]; exact hmemrange j hj
    have hj2 : j ∈ g.map Prod.snd := by rw [← hidxs]; exact hj
    obtain ⟨p, hpg, hpj⟩ := List.mem_map.mp hj2
    have hkey : keys.getD j "" = p.1 := by
      rw [List.getD_eq_get? keys j "", ← hpj, hpairlookup p hpg]
      rfl
    have hpin : (j, respK p.1) ∈ g.map (fun q => (q.2, respK q.1)) := by
      have h2 : (p.2, respK p.1) ∈ g.map (fun q => (q.2, respK q.1)) :=
        List.mem_map_of_mem (fun q : String × Nat => (q.2, respK q.1)) hpg
      rwa [hpj] at h2
    have := hmem2 (j, respK p.1) hpin hjlt
    rw [hkey]
    exact this
  · intro j hj
    apply hnot2
    rw [List.map_map]
    have heq : (Prod.fst ∘ fun p : String × Nat => (p.2, respK p.1)) = Prod.snd := rfl
    rw [heq, ← hidxs]
    exact hj

/-- Folding fragment deposits over any duplicate-free schedule: given a
per-fragment deposit specification (fills own indexes with `valueAt`,
leaves the rest alone) and pairwise disjoint fragments, the accumulated
slots hold `valueAt j` at every index of a scheduled fragment and the
original content elsewhere; the error counter is unchanged. -/
theorem mget_foldl_slots (frags : List (List Nat)) (valOf : Nat → RespValue)
    (valueAt : Nat → RespValue) (N : Nat)
    (hstep : ∀ fi, fi < frags.length → ∀ (slots : List RespValue) (ec : Nat),
      slots.length = N →
      ∃ slots2, mgetDeposit (valOf fi) (frags.getD fi []) ⟨slots, ec⟩
          = some ⟨slots2, ec⟩
        ∧ slots2.length = slots.length
        ∧ (∀ j ∈ frags.getD fi [], slots2.get? j = some (valueAt j))
        ∧ (∀ j, j ∉ frags.getD fi [] → slots2.get? j = slots.get? j))
    (hdisj : ∀ fi fj, fi < frags.length → fj < frags.length → fi ≠ fj →
      ∀ x ∈ frags.getD fi [], x ∉ frags.getD fj []) :
    ∀ (order : List Nat) (slots : List RespValue) (ec : Nat),
    order.Nodup → (∀ fi ∈ order, fi < frags.length) → slots.length = N →
    ∃ slotsF,
      order.foldl (fun a fi => (mgetDeposit (valOf fi) (frags.getD fi []) a).getD a)
          ⟨slots, ec⟩ = ⟨slotsF, ec⟩
      ∧ slotsF.length = N
      ∧ (∀ j, (∃ fi, fi ∈ order ∧ j ∈ frags.getD fi []) →
          slotsF.get? j = some (valueAt j))
      ∧ (∀ j, (∀ fi ∈ order, j ∉ frags.getD fi []) →
          slotsF.get? j = slots.get? j) := by
  intro order
  induction order with
  | nil =>
    intro slots ec _ _ hslots
    exact ⟨slots, rfl, hslots, fun j hj => absurd hj.choose_spec.1
      (List.not_mem_nil _), fun j _ => rfl⟩
  | cons fi rest ih =>
    intro slots ec hnd horder hslots
    have hfi : fi < frags.length := horder fi (List.mem_cons_self fi rest)
    obtain ⟨slots2, hdep, hlen2, hmem2, hnot2⟩ := hstep fi hfi slots ec hslots
    have hslots2 : slots2.length = N := by rw [hlen2, hslots]
    obtain ⟨slotsF, hfold, hlenF, hmemF, hnotF⟩ :=
      ih slots2 ec (List.nodup_cons.mp hnd).2
        (fun fj hfj => horder fj (List.mem_cons_of_mem _ hfj)) hslots2
    have hfinotin : fi ∉ rest := (List.nodup_cons.mp hnd).1
    refine ⟨slotsF, ?_, hlenF, ?_, ?_⟩
    · rw [List.foldl_cons, hdep]
      exact hfold
    · intro j hj
      obtain ⟨fi2, hfi2, hjin⟩ := hj
      rcases List.mem_cons.mp hfi2 with heq | hrest
      · subst heq
        have hpres : ∀ fj ∈ rest, j ∉ frags.getD fj [] := by
          intro fj hfj
          exact hdisj fi2 fj hfi (horder fj (List.mem_cons_of_mem _ hfj))
            (fun h => hfinotin (h ▸ hfj)) j hjin
        rw [hnotF j hpres]
        exact hmem2 j hjin
      · exact hmemF j ⟨fi2, hrest, hjin⟩
    · intro j hj
      rw [hnotF j (fun fj hfj => hj fj (List.mem_cons_of_mem _ hfj))]
      exact hnot2 j (hj fi (List.mem_cons_self fi rest))

/-- C2: an MGET over `keys` whose fragments all complete — in any order,
with each fragment answered by the array of per-key values for its keys —
delivers exactly one reply: a RESP array of length `keys.length` whose
`i`-th slot is the value for the `i`-th input key.  The grouping of keys
into fragments is the host grouping for an arbitrary `getHost`, and the
completion order is an arbitrary permutation of the fragments. -/
theorem mget_positional_integrity (getHost : String → String) (keys : List String)
    (respK : String → RespValue) (order : List Nat)
    (hkeys : keys ≠ [])
    (hwf : ∀ s, nullOrBulk (respK s) = true)
    (hperm : order.Perm (List.range (mgetGroups getHost keys).length)) :
    (mgetRun (mgetFragIdxs getHost keys)
        (order.map (fun fi => (fi, ChildEvent.response
          (.array (((mgetFragKeys getHost keys).getD fi []).map respK)))))
        (mgetInit getHost keys)).map (fun p => p.2)
      = some [RespValue.array (keys.map respK)] := by
  set frags := mgetFragIdxs getHost keys with hfragsdef
  have hfragslen : frags.length = (mgetGroups getHost keys).length :=
    List.length_map _ _
  have hflat := mgetFragIdxs_join_perm getHost keys
  rw [← hfragsdef] at hflat
  have hflnodup : frags.flatten.Nodup :=
    hflat.nodup_iff.mpr (List.nodup_range _)
  have hkeyslen : 0 < keys.length := List.length_pos.mpr hkeys
  have hkne : (mgetGroups getHost keys).length ≠ 0 := by
    intro h0
    have hfl : frags = [] := by
      rw [← List.length_eq_zero, hfragslen, h0]
    rw [hfl] at hflat
    have : (List.range keys.length) = [] := (List.Perm.nil_eq hflat).symm
    rw [← List.length_eq_zero] at this
    rw [List.length_range] at this
    omega
  have horderlen : order.length = (mgetGroups getHost keys).length := by
    rw [hperm.length_eq, List.length_range]
  have hne : order ≠ [] := by
    intro h
    rw [h] at horderlen
    exact hkne horderlen.symm
  have hordermem : ∀ fi ∈ order, fi < (mgetGroups getHost keys).length :=
    fun fi hfi => List.mem_range.mp (hperm.mem_iff.mp hfi)
  -- lengths of fragment key lists and index lists agree
  have hfraglen : ∀ fi, fi < (mgetGroups getHost keys).length →
      (((mgetFragKeys getHost keys).getD fi []).map respK).length
        = (frags.getD fi []).length := by
    intro fi hfi
    show ((((mgetGroups getHost keys).map (fun g => g.2.map Prod.fst)).getD fi []).map
        respK).length
      = (((mgetGroups getHost keys).map (fun g => g.2.map Prod.snd)).getD fi []).length
    rw [getD_map_lt (mgetGroups getHost keys) _ fi hfi [],
      getD_map_lt (mgetGroups getHost keys) _ fi hfi []]
    simp
  -- every scheduled event deposits successfully
  have hdepok : ∀ fi ∈ order, ∀ a : MGETAgg,
      (mgetDeposit
        (eventValue (ChildEvent.response
          (.array (((mgetFragKeys getHost keys).getD fi []).map respK))))
        (frags.getD fi []) a).isSome = true := by
    intro fi hfi a
    have hall : (((mgetFragKeys getHost keys).getD fi []).map respK).all nullOrBulk
        = true := by
      apply List.all_eq_true.mpr
      intro v hv
      obtain ⟨s, _, rfl⟩ := List.mem_map.mp hv
      exact hwf s
    have hok : mgetEventOk
        (ChildEvent.response
          (.array (((mgetFragKeys getHost keys).getD fi []).map respK)))
        (frags.getD fi []) = true := by
      show (decide ((((mgetFragKeys getHost keys).getD fi []).map respK).length
          = (frags.getD fi []).length)
        && (((mgetFragKeys getHost keys).getD fi []).map respK).all nullOrBulk) = true
      rw [decide_eq_true (hfraglen fi (hordermem fi hfi)), hall]
      rfl
    exact mgetEventOk_deposit_isSome _ _ hok a
  have hrun := runEvents_complete mgetDeposit mgetFinalize frags
    (fun fi => ChildEvent.response
      (.array (((mgetFragKeys getHost keys).getD fi []).map respK)))
    order (mgetInit getHost keys)
    (hperm.nodup_iff.mpr (List.nodup_range _))
    (by
      intro fi hfi
      exact replicate_true_get? _ _ (hordermem fi hfi))
    (by
      show (mgetGroups getHost keys).length = order.length
      exact horderlen.symm)
    (fun fi hfi a => hdepok fi hfi a)
  unfold mgetRun
  rw [hrun, Option.map_some', if_neg hne]
  -- characterise the accumulated slots
  obtain ⟨slotsF, hfold, hlenF, hmemF, hnotF⟩ :=
    mget_foldl_slots frags
      (fun fi => .array (((mgetFragKeys getHost keys).getD fi []).map respK))
      (fun j => respK (keys.getD j "")) keys.length
      (by
        intro fi hfi slots ec hslots
        exact mget_fragment_deposit_spec getHost keys respK hwf fi
          (by rw [← hfragslen]; exact hfi) slots ec hslots)
      (by
        intro fi fj hfi hfj hnefij x hx
        exact (flatten_nodup_parts frags hflnodup).2 fi fj hfi hfj hnefij x hx)
      order (List.replicate keys.length RespValue.null) 0
      (hperm.nodup_iff.mpr (List.nodup_range _))
      (fun fi hfi => by rw [hfragslen]; exact hordermem fi hfi)
      (List.length_replicate _ _)
  have hfoldagg : order.foldl
      (fun a fi =>
        (mgetDeposit
          (eventValue (ChildEvent.response
            (.array (((mgetFragKeys getHost keys).getD fi []).map respK))))
          (frags.getD fi []) a).getD a)
      (mgetInit getHost keys).agg
      = MGETAgg.mk slotsF 0 := by
    exact hfold
  rw [hfoldagg]
  -- the accumulated slots are exactly the per-key values in key order
  have hslotsF : slotsF = keys.map respK := by
    apply List.ext
    intro n
    by_cases hn : n < keys.length
    · have hcov : ∃ fi, fi ∈ order ∧ n ∈ frags.getD fi [] := by
        have hnfl : n ∈ frags.flatten :=
          hflat.mem_iff.mpr (List.mem_range.mpr hn)
        obtain ⟨l, hl, hnl⟩ := List.mem_flatten.mp hnfl
        obtain ⟨fin, hfin⟩ := List.mem_iff_get.mp hl
        refine ⟨fin.val, ?_, ?_⟩
        · apply hperm.mem_iff.mpr
          apply List.mem_range.mpr
          rw [← hfragslen]
          exact fin.isLt
        · rw [getD_lt_eq_get frags fin.val fin.isLt, hfin]
          exact hnl
      rw [hmemF n hcov, List.get?_map, List.get?_eq_get hn]
      rw [getD_lt_eq_get keys n hn]
      rfl
    · have h1 : slotsF.get? n = none :=
        List.get?_eq_none.mpr (by rw [hlenF]; omega)
      have h2 : (keys.map respK).get? n = none :=
        List.get?_eq_none.mpr (by rw [List.length_map]; omega)
      rw [h1, h2]
  rw [hslotsF]
  rfl

/-- C2 witness: scenario S2 — `MGET a b c` with `a`,`c` on one host and `b`
on another, the single-key fragment completing first; the reply is
`[va, vb, null]` in input-key order. -/
theorem mget_positional_integrity_witness :
    ([1, 0] : List Nat).Perm
      (List.range (mgetGroups (fun s => if s = "b" then "H2" else "H1")
        ["a", "b", "c"]).length) ∧
    ((mgetRun
        (mgetFragIdxs (fun s => if s = "b" then "H2" else "H1") ["a", "b", "c"])
        (([1, 0] : List Nat).map (fun fi => (fi, ChildEvent.response
          (.array (((mgetFragKeys (fun s => if s = "b" then "H2" else "H1")
            ["a", "b", "c"]).getD fi []).map
            (fun s => if s = "a" then RespValue.bulk "va"
              else if s = "b" then RespValue.bulk "vb" else RespValue.null))))))
        (mgetInit (fun s => if s = "b" then "H2" else "H1") ["a", "b", "c"])).map
      (fun p => p.2)
      = some [RespValue.array [.bulk "va", .bulk "vb", .null]]) := by
  refine ⟨by decide, ?_⟩
  have h := mget_positional_integrity (fun s => if s = "b" then "H2" else "H1")
    ["a", "b", "c"]
    (fun s => if s = "a" then RespValue.bulk "va"
      else if s = "b" then RespValue.bulk "vb" else RespValue.null)
    [1, 0] (by decide)
    (by
      intro s
      by_cases h1 : s = "a"
      · simp [h1, nullOrBulk]
      · by_cases h2 : s = "b"
        · simp [h1, h2, nullOrBulk]
        · simp [h1, h2, nullOrBulk])
    (by decide)
  exact h

end RedisSplitter
